import Mathlib

/-!
Verification of the `eyeball` window-limiting combinator and observable
collection model. Definitions are shallow embeddings of the Rust sources:
`VectorDiff`, `update_buffered_vector`, `handle_diff`, `update_limit` and the
`Limit` combinator come from `eyeball-im-util/src/vector/limit.rs`; the
`ObservableVector` broadcast/entry/enumeration layer, whose implementation is
not among the provided sources, is modelled from the specification.
-/

universe u

variable {T : Type u}

/-- The closed set of atomic change operations over an ordered collection
(`VectorDiff` in `eyeball-im`). -/
inductive VectorDiff (T : Type u) where
  | append (values : List T)
  | clear
  | pushFront (value : T)
  | pushBack (value : T)
  | popFront
  | popBack
  | insert (index : Nat) (value : T)
  | set (index : Nat) (value : T)
  | remove (index : Nat)
  | truncate (length : Nat)
  | reset (values : List T)
  deriving DecidableEq

/-- Apply semantics of one diff against a mirror, from `update_buffered_vector`
in `limit.rs` (the `imbl::Vector` operations, with out-of-range `pop` a no-op
as in `imbl`). -/
def update_buffered_vector (diff : VectorDiff T) (buffered_vector : List T) : List T :=
  match diff with
  | .append values => buffered_vector ++ values
  | .clear => []
  | .pushFront value => value :: buffered_vector
  | .pushBack value => buffered_vector ++ [value]
  | .popFront => buffered_vector.tail
  | .popBack => buffered_vector.dropLast
  | .insert index value => buffered_vector.insertIdx index value
  | .set index value => buffered_vector.set index value
  | .remove index => buffered_vector.eraseIdx index
  | .truncate length => buffered_vector.take length
  | .reset values => values

/-- Replay a sequence of diffs against a view, in order. -/
def replay (view : List T) (diffs : List (VectorDiff T)) : List T :=
  diffs.foldl (fun w d => update_buffered_vector d w) view

/-- Transform one input diff into 0–2 output diffs, from `handle_diff` in
`limit.rs`. `buffered_vector` is the mirror after the diff was applied. -/
def handle_diff (diff : VectorDiff T) (limit prev_len : Nat) (buffered_vector : List T) :
    List (VectorDiff T) :=
  if limit = 0 then []
  else
    let is_full := decide (prev_len ≥ limit)
    match diff with
    | .append values =>
        if is_full then []
        else [.append (values.take (min (limit - prev_len) values.length))]
    | .clear => [.clear]
    | .pushFront value =>
        (if is_full then [.popBack] else []) ++ [.pushFront value]
    | .pushBack value =>
        if is_full then [] else [.pushBack value]
    | .popFront =>
        .popFront ::
          (match buffered_vector[limit - 1]? with
            | some x => [.pushBack x]
            | none => [])
    | .popBack =>
        if prev_len > limit then [] else [.popBack]
    | .insert index value =>
        if index ≥ limit then []
        else (if is_full then [.popBack] else []) ++ [.insert index value]
    | .set index value =>
        if index ≥ limit then [] else [.set index value]
    | .remove index =>
        if index ≥ limit then []
        else
          .remove index ::
            (match buffered_vector[limit - 1]? with
              | some x => [.pushBack x]
              | none => [])
    | .truncate new_length =>
        if new_length ≥ limit then [] else [.truncate new_length]
    | .reset new_values =>
        [.reset (if new_values.length > limit then new_values.take limit else new_values)]

/-- State of one `Limit` combinator instance: the private unlimited mirror and
the current limit (`buffered_vector` and `limit` fields in `limit.rs`). -/
structure LimitState (T : Type u) where
  buffered_vector : List T
  limit : Nat
  deriving DecidableEq

/-- Handle one new limit value, from `update_limit` in `limit.rs`. Returns the
updated state and the optional output diff. -/
def update_limit (s : LimitState T) (new_limit : Nat) : LimitState T × Option (VectorDiff T) :=
  let old_limit := s.limit
  let s' : LimitState T := { s with limit := new_limit }
  if s.buffered_vector.isEmpty then
    (s', none)
  else if old_limit < new_limit then
    let missing_items := (s.buffered_vector.drop old_limit).take (new_limit - old_limit)
    if missing_items.isEmpty then
      (s', none)
    else
      (s', some (.append missing_items))
  else if new_limit < old_limit then
    if s.buffered_vector.length ≤ new_limit then
      (s', none)
    else
      (s', some (.truncate new_limit))
  else
    (s', none)

/-- One input consumed by the combinator: a diff from the true stream or a new
limit from the limit stream. -/
inductive LimitEvent (T : Type u) where
  | diff (d : VectorDiff T)
  | limit (n : Nat)
  deriving DecidableEq

/-- Process one event, mirroring one loop iteration of `LimitProj::poll_next`:
a limit event goes through `update_limit`; a diff event is first applied to the
mirror and then rewritten by `handle_diff`. -/
def stepEvent (s : LimitState T) (e : LimitEvent T) : LimitState T × List (VectorDiff T) :=
  match e with
  | .limit n =>
      ((update_limit s n).1, (update_limit s n).2.toList)
  | .diff d =>
      let prev_len := s.buffered_vector.length
      let bv := update_buffered_vector d s.buffered_vector
      ({ s with buffered_vector := bv }, handle_diff d s.limit prev_len bv)

/-- Process a finite sequence of events, accumulating all output diffs. -/
def processEvents (s : LimitState T) : List (LimitEvent T) → LimitState T × List (VectorDiff T)
  | [] => (s, [])
  | e :: rest =>
      ((processEvents (stepEvent s e).1 rest).1,
       (stepEvent s e).2 ++ (processEvents (stepEvent s e).1 rest).2)

/-- A diff is well formed for a mirror when indexed operations are in range
(`imbl::Vector` panics on out-of-range `insert`, `set` and `remove`). -/
def validDiff (d : VectorDiff T) (v : List T) : Bool :=
  match d with
  | .insert index _ => index ≤ v.length
  | .set index _ => index < v.length
  | .remove index => index < v.length
  | _ => true

/-- A sequence of events is well formed when every diff event is well formed
for the mirror at the time it is consumed. -/
def validEvents (v : List T) : List (LimitEvent T) → Bool
  | [] => true
  | .limit _ :: rest => validEvents v rest
  | .diff d :: rest => validDiff d v && validEvents (update_buffered_vector d v) rest

/-- The diffs consumed from the true stream, in order, within an event
sequence. -/
def eventDiffs : List (LimitEvent T) → List (VectorDiff T)
  | [] => []
  | .diff d :: rest => d :: eventDiffs rest
  | .limit _ :: rest => eventDiffs rest

/-- The `Limit::dynamic` constructor: mirror is the initial values, limit
starts at 0. -/
def Limit.dynamic (initial_values : List T) : LimitState T :=
  { buffered_vector := initial_values, limit := 0 }

/-- The `Limit::dynamic_with_initial_limit` constructor: returns the truncated
initial values together with the combinator state, whose mirror keeps the full
initial values. -/
def Limit.dynamic_with_initial_limit (initial_values : List T) (initial_limit : Nat) :
    List T × LimitState T :=
  let buffered_vector := initial_values
  let truncated :=
    if initial_limit < initial_values.length then initial_values.take initial_limit
    else initial_values
  (truncated, { buffered_vector := buffered_vector, limit := initial_limit })

/-- `VectorObserver::into_parts` for `Limit`: returns the internal
`buffered_vector` (together with the stream, which we drop here). -/
def into_parts (s : LimitState T) : List T :=
  s.buffered_vector

/-- Full state of a polled `Limit` combinator: the buffered not-yet-emitted
output diffs (`ready_values`), the two input streams modelled as the finite
lists of items they will still yield before ending, and the mirror and limit. -/
structure LimitStream (T : Type u) where
  ready_values : List (VectorDiff T)
  limit_stream : List Nat
  inner_stream : List (VectorDiff T)
  buffered_vector : List T
  limit : Nat
  deriving DecidableEq

/-- The limit-draining phase of `LimitProj::poll_next`: pull available limit
values one by one, updating the limit through `update_limit`, until one of them
produces an output diff or the available values run out. Returns the state,
the unconsumed limit values, and the produced diff, if any. -/
def drainLimits (s : LimitState T) : List Nat → LimitState T × List Nat × Option (VectorDiff T)
  | [] => (s, [], none)
  | n :: ls =>
      let p := update_limit s n
      match p.2 with
      | some d => (p.1, ls, some d)
      | none => drainLimits p.1 ls

/-- The inner-stream phase of `LimitProj::poll_next`: consume diffs from the
true stream, applying each to the mirror and rewriting it with `handle_diff`,
until some input produces output diffs or the stream ends. Returns the state,
the unconsumed inputs, the first output diff if any, and the extra output diff
to be buffered. -/
def pollDiffs (s : LimitState T) :
    List (VectorDiff T) → LimitState T × List (VectorDiff T) × Option (VectorDiff T) × List (VectorDiff T)
  | [] => (s, [], none, [])
  | d :: ds =>
      let prev_len := s.buffered_vector.length
      let bv := update_buffered_vector d s.buffered_vector
      let s' : LimitState T := { s with buffered_vector := bv }
      match handle_diff d s.limit prev_len bv with
      | [] => pollDiffs s' ds
      | o :: os => (s', ds, some o, os)

/-- One activation of `LimitProj::poll_next`: emit a buffered diff if any;
otherwise drain available limit updates, returning the first one that produces
a diff; otherwise consume diffs from the inner stream until one produces
output or the stream ends. `(none, _)` is end-of-stream. -/
def pollNext (s : LimitStream T) : Option (VectorDiff T) × LimitStream T :=
  match s.ready_values with
  | r :: rest => (some r, { s with ready_values := rest })
  | [] =>
      let dl := drainLimits ⟨s.buffered_vector, s.limit⟩ s.limit_stream
      match dl.2.2 with
      | some d =>
          (some d,
           { ready_values := [], limit_stream := dl.2.1, inner_stream := s.inner_stream,
             buffered_vector := dl.1.buffered_vector, limit := dl.1.limit })
      | none =>
          let pd := pollDiffs dl.1 s.inner_stream
          match pd.2.2.1 with
          | some o =>
              (some o,
               { ready_values := pd.2.2.2, limit_stream := dl.2.1, inner_stream := pd.2.1,
                 buffered_vector := pd.1.buffered_vector, limit := pd.1.limit })
          | none =>
              (none,
               { ready_values := [], limit_stream := dl.2.1, inner_stream := pd.2.1,
                 buffered_vector := pd.1.buffered_vector, limit := pd.1.limit })

/-- Modelled from the spec: per-subscriber channel state of the lag-tolerant
broadcast (§4.2); the `ObservableVector` implementation (the `vector` module
of `eyeball-im`) is not among the provided sources. `queue` holds the
undelivered diffs, `lagged` records that the channel overflowed and pending
history was collapsed. -/
structure SubState (T : Type u) where
  queue : List (VectorDiff T)
  lagged : Bool
  deriving DecidableEq

/-- Modelled from the spec: the observable collection of §4.2 — one
authoritative ordered sequence, a channel capacity chosen at creation, and a
set of independent subscriber channels. -/
structure ObservableVector (T : Type u) where
  values : List T
  capacity : Nat
  subs : List (SubState T)
  deriving DecidableEq

/-- Modelled from the spec: `ObservableVector::with_capacity` — empty
collection, capacity `C` chosen at creation, no subscribers yet. -/
def ObservableVector.with_capacity (capacity : Nat) : ObservableVector T :=
  { values := [], capacity := capacity, subs := [] }

/-- Modelled from the spec: `ObservableVector::subscribe` — adds one
independent subscriber channel (its index is the previous subscriber count). -/
def ObservableVector.subscribe (ob : ObservableVector T) : ObservableVector T :=
  { ob with subs := ob.subs ++ [{ queue := [], lagged := false }] }

/-- Modelled from the spec: one mutation of §4.2 — apply the diff to the
authoritative sequence and enqueue it to every subscriber channel
independently; a mutation that would push the undelivered count of a
subscriber above the capacity collapses its pending history and marks it
lagged. -/
def ObservableVector.broadcast_diff (ob : ObservableVector T) (d : VectorDiff T) :
    ObservableVector T :=
  { ob with
    values := update_buffered_vector d ob.values,
    subs := ob.subs.map fun sub =>
      if sub.lagged then sub
      else if sub.queue.length + 1 > ob.capacity then { queue := [], lagged := true }
      else { queue := sub.queue ++ [d], lagged := false } }

/-- Modelled from the spec: `ObservableVector::push_back`. -/
def ObservableVector.push_back (ob : ObservableVector T) (value : T) : ObservableVector T :=
  ob.broadcast_diff (.pushBack value)

/-- Modelled from the spec: one receive on subscriber `i` — a lagged
subscriber obtains a single `Reset` carrying the authoritative value at poll
time and is fully caught up afterwards; otherwise diffs are delivered in
mutation order, one per poll. -/
def ObservableVector.pollSub (ob : ObservableVector T) (i : Nat) :
    Option (VectorDiff T) × ObservableVector T :=
  match ob.subs[i]? with
  | none => (none, ob)
  | some sub =>
    if sub.lagged then
      (some (.reset ob.values), { ob with subs := ob.subs.set i { queue := [], lagged := false } })
    else
      match sub.queue with
      | [] => (none, ob)
      | d :: rest => (some d, { ob with subs := ob.subs.set i { queue := rest, lagged := false } })

/-- Modelled from the spec: the operations a mutation cursor
(`ObservableVectorEntry`) supports during one enumeration step (§4.3) —
overwrite in place, or delete the element. -/
inductive CursorOp (T : Type u) where
  | set (value : T)
  | remove
  deriving DecidableEq

/-- Modelled from the spec: run the cursor operations of one enumeration step
at true position `pos` — `set` overwrites and emits `Set(true_index, v)`,
`remove` deletes, emits `Remove(true_index)` and consumes the cursor. Returns
the updated collection, the emitted diffs, and whether the element was
removed. -/
def runEntryOps (coll : List T) (pos : Nat) : List (CursorOp T) → List T × List (VectorDiff T) × Bool
  | [] => (coll, [], false)
  | .set v :: rest =>
      let (c, ds, removed) := runEntryOps (coll.set pos v) pos rest
      (c, .set pos v :: ds, removed)
  | .remove :: _ => (coll.eraseIdx pos, [.remove pos], true)

/-- Modelled from the spec: the forward enumeration driver behind
`ObservableVector::for_each` (§4.3) — visits the original elements in
ascending order; after a removal the cursor position is not advanced, so every
subsequent position is the nominal index minus the number of prior removals in
the pass. `fuel` is the number of original elements still to visit. -/
def for_each_go (f : T → List (CursorOp T)) : Nat → List T → Nat → List T × List (VectorDiff T)
  | 0, coll, _ => (coll, [])
  | fuel + 1, coll, pos =>
      match coll[pos]? with
      | none => (coll, [])
      | some x =>
          let (c1, ds, removed) := runEntryOps coll pos (f x)
          let (c2, ds2) := for_each_go f fuel c1 (if removed then pos else pos + 1)
          (c2, ds ++ ds2)

/-- Modelled from the spec: `ObservableVector::for_each` — enumerate the
collection with a per-element visitor that may set or remove through the
mutation cursor; returns the final collection and the emitted diffs. -/
def for_each (coll : List T) (f : T → List (CursorOp T)) : List T × List (VectorDiff T) :=
  for_each_go f coll.length coll 0

/-- The visitor of the `for_each` test in `eyeball-im/tests/it.rs`: halve even
elements (removing those whose halved value is zero), remove odd elements
greater than ten. -/
def halve_evens_visitor (x : Nat) : List (CursorOp Nat) :=
  if x % 2 == 0 then
    let new_value := x / 2
    if new_value == 0 then [.set new_value, .remove] else [.set new_value]
  else if x > 10 then [.remove]
  else []

/-- Modelled from the spec: direct cursor addressing `ObservableVector::entry`
— yields the addressed element, failing with an out-of-range condition (hard
failure, modelled as `none`) when the index is not below the current length. -/
def entry (coll : List T) (index : Nat) : Option T :=
  if index < coll.length then coll[index]? else none

/-! Helper lemmas about `replay` and list operations. -/

theorem replay_nil (w : List T) : replay w [] = w := rfl

theorem replay_cons (w : List T) (d : VectorDiff T) (ds : List (VectorDiff T)) :
    replay w (d :: ds) = replay (update_buffered_vector d w) ds := rfl

theorem replay_append (w : List T) (ds1 ds2 : List (VectorDiff T)) :
    replay w (ds1 ++ ds2) = replay (replay w ds1) ds2 := by
  simp [replay, List.foldl_append]

theorem tail_take_eq (l : List T) (n : Nat) : (l.take n).tail = l.tail.take (n - 1) := by
  cases l with
  | nil => simp
  | cons a l => cases n <;> simp

theorem take_insertIdx_of_le (L : Nat) :
    ∀ (i : Nat) (x : T) (l : List T), L ≤ i → (l.insertIdx i x).take L = l.take L := by
  induction L with
  | zero => simp
  | succ L ih =>
    intro i x l h
    match i, l with
    | 0, _ => omega
    | i + 1, [] => simp
    | i + 1, a :: l => simp [List.insertIdx_succ_cons, ih i x l (by omega)]

theorem take_eraseIdx_of_le (L : Nat) :
    ∀ (i : Nat) (l : List T), L ≤ i → (l.eraseIdx i).take L = l.take L := by
  induction L with
  | zero => simp
  | succ L ih =>
    intro i l h
    match i, l with
    | 0, _ => omega
    | i + 1, [] => simp
    | i + 1, a :: l => simp [ih i l (by omega)]

theorem insertIdx_take_eq (i : Nat) :
    ∀ (n : Nat) (x : T) (l : List T), i ≤ n → i ≤ l.length →
      (l.take n).insertIdx i x = (l.insertIdx i x).take (n + 1) := by
  induction i with
  | zero => intro n x l _ _; simp
  | succ i ih =>
    intro n x l h1 h2
    match n, l with
    | _, [] => simp at h2
    | 0, a :: l => omega
    | m + 1, a :: l =>
      simp [List.insertIdx_succ_cons, ih m x l (by omega) (by simpa using h2)]

theorem eraseIdx_take_eq (i : Nat) :
    ∀ (n : Nat) (l : List T), i ≤ n → (l.take (n + 1)).eraseIdx i = (l.eraseIdx i).take n := by
  induction i with
  | zero =>
    intro n l _
    cases l <;> simp
  | succ i ih =>
    intro n l h
    match n, l with
    | _, [] => simp
    | 0, a :: l => omega
    | m + 1, a :: l => simp [ih m l (by omega)]

theorem dropLast_take_of_le {L : Nat} {l : List T} (h : L ≤ l.length) :
    (l.take L).dropLast = l.take (L - 1) := by
  rw [List.dropLast_eq_take, List.length_take, List.take_take]
  congr 1
  omega

/-- Replaying the output diffs of one consumed input diff against the
truncated view produces the truncated post-apply mirror. -/
theorem handle_diff_replay (d : VectorDiff T) (L : Nat) (v : List T) (hd : validDiff d v = true) :
    replay (v.take L) (handle_diff d L v.length (update_buffered_vector d v))
      = (update_buffered_vector d v).take L := by
  by_cases hL : L = 0
  · cases d <;> simp [hL, handle_diff, replay]
  cases d with
  | append vs =>
    by_cases hf : v.length ≥ L
    · simp [handle_diff, update_buffered_vector, hL, hf, replay,
            List.take_append_of_le_length hf]
    · have h1 : v.take L = v := List.take_of_length_le (by omega)
      have h2 : vs.take (min (L - v.length) vs.length) = vs.take (L - v.length) := by
        rw [← List.take_take, List.take_length]
      simp [handle_diff, update_buffered_vector, hL, hf, replay, h2,
            List.take_append_eq_append_take, h1]
  | clear => simp [handle_diff, update_buffered_vector, hL, replay]
  | pushFront x =>
    obtain ⟨m, rfl⟩ : ∃ m, L = m + 1 := ⟨L - 1, by omega⟩
    by_cases hf : v.length ≥ m + 1
    · have h1 : (v.take (m + 1)).dropLast = v.take m := by
        rw [dropLast_take_of_le hf, Nat.add_sub_cancel]
      simp [handle_diff, update_buffered_vector, hf, replay, h1]
    · have h1 : v.take (m + 1) = v := List.take_of_length_le (by omega)
      have h2 : v.take m = v := List.take_of_length_le (by omega)
      simp [handle_diff, update_buffered_vector, hf, replay, h1, h2]
  | pushBack x =>
    by_cases hf : v.length ≥ L
    · simp [handle_diff, update_buffered_vector, hL, hf, replay,
            List.take_append_of_le_length hf]
    · have h1 : v.take L = v := List.take_of_length_le (by omega)
      have h2 : (v ++ [x]).take L = v ++ [x] := List.take_of_length_le (by simp; omega)
      simp [handle_diff, update_buffered_vector, hL, hf, replay, h1, h2]
  | popFront =>
    have htail : (v.take L).tail = v.tail.take (L - 1) := tail_take_eq v L
    have hsucc : v.tail.take L = v.tail.take (L - 1) ++ (v.tail[L - 1]?).toList := by
      conv_lhs => rw [show L = (L - 1) + 1 by omega]
      exact List.take_succ
    cases hx : v.tail[L - 1]? with
    | some x =>
      simp [handle_diff, update_buffered_vector, hL, hx, replay, htail, hsucc]
    | none =>
      simp [handle_diff, update_buffered_vector, hL, hx, replay, htail, hsucc]
  | popBack =>
    by_cases hf : v.length > L
    · have h1 : v.dropLast.take L = v.take L := by
        rw [List.dropLast_eq_take, List.take_take]
        congr 1
        omega
      simp [handle_diff, update_buffered_vector, hL, hf, replay, h1]
    · have h1 : v.take L = v := List.take_of_length_le (by omega)
      have h2 : v.dropLast.take L = v.dropLast := by
        apply List.take_of_length_le
        simp
        omega
      simp [handle_diff, update_buffered_vector, hL, hf, replay, h1, h2]
  | insert i x =>
    simp only [validDiff, decide_eq_true_eq] at hd
    by_cases hi : i ≥ L
    · simp [handle_diff, update_buffered_vector, hL, hi, replay,
            take_insertIdx_of_le L i x v hi]
    · by_cases hf : v.length ≥ L
      · have h1 : (v.take L).dropLast = v.take (L - 1) := dropLast_take_of_le hf
        have h2 : (v.take (L - 1)).insertIdx i x = (v.insertIdx i x).take L := by
          rw [insertIdx_take_eq i (L - 1) x v (by omega) hd, show L - 1 + 1 = L by omega]
        simp [handle_diff, update_buffered_vector, hL, hi, hf, replay, h1, h2]
      · have h1 : v.take L = v := List.take_of_length_le (by omega)
        have h2 : (v.insertIdx i x).take L = v.insertIdx i x := by
          apply List.take_of_length_le
          rw [List.length_insertIdx i v hd]
          omega
        simp [handle_diff, update_buffered_vector, hL, hi, hf, replay, h1, h2]
  | set i x =>
    simp only [validDiff, decide_eq_true_eq] at hd
    by_cases hi : i ≥ L
    · have h1 : (v.set i x).take L = v.take L := by
        rw [List.set_take]
        apply List.set_eq_of_length_le
        simp
        omega
      simp [handle_diff, update_buffered_vector, hL, hi, replay, h1]
    · simp [handle_diff, update_buffered_vector, hL, hi, replay, List.set_take]
  | remove i =>
    simp only [validDiff, decide_eq_true_eq] at hd
    by_cases hi : i ≥ L
    · simp [handle_diff, update_buffered_vector, hL, hi, replay,
            take_eraseIdx_of_le L i v hi]
    · have herase : (v.take L).eraseIdx i = (v.eraseIdx i).take (L - 1) := by
        conv_lhs => rw [show L = (L - 1) + 1 by omega]
        exact eraseIdx_take_eq i (L - 1) v (by omega)
      have hsucc : (v.eraseIdx i).take L
          = (v.eraseIdx i).take (L - 1) ++ ((v.eraseIdx i)[L - 1]?).toList := by
        conv_lhs => rw [show L = (L - 1) + 1 by omega]
        exact List.take_succ
      cases hx : (v.eraseIdx i)[L - 1]? with
      | some x =>
        simp [handle_diff, update_buffered_vector, hL, hi, hx, replay, herase, hsucc]
      | none =>
        simp [handle_diff, update_buffered_vector, hL, hi, hx, replay, herase, hsucc]
  | truncate m =>
    by_cases hm : m ≥ L
    · have h1 : (v.take m).take L = v.take L := by
        rw [List.take_take]
        congr 1
        omega
      simp [handle_diff, update_buffered_vector, hL, hm, replay, h1]
    · have h1 : (v.take L).take m = v.take m := by
        rw [List.take_take]
        congr 1
        omega
      have h2 : (v.take m).take L = v.take m := by
        rw [List.take_take]
        congr 1
        omega
      simp [handle_diff, update_buffered_vector, hL, hm, replay, h1, h2]
  | reset vs =>
    by_cases hv : vs.length > L
    · simp [handle_diff, update_buffered_vector, hL, hv, replay]
    · have h1 : vs.take L = vs := List.take_of_length_le (by omega)
      simp [handle_diff, update_buffered_vector, hL, hv, replay, h1]

theorem update_limit_fst (s : LimitState T) (n : Nat) :
    (update_limit s n).1 = { buffered_vector := s.buffered_vector, limit := n } := by
  by_cases h1 : s.buffered_vector.isEmpty <;>
  by_cases h2 : s.limit < n <;>
  by_cases h3 : n < s.limit <;>
  by_cases h4 : ((s.buffered_vector.drop s.limit).take (n - s.limit)).isEmpty <;>
  by_cases h5 : s.buffered_vector.length ≤ n <;>
  simp [update_limit, h1, h2, h3, h4, h5]

/-- Replaying the output of one consumed limit update against the truncated
view produces the mirror truncated to the new limit. -/
theorem update_limit_replay (s : LimitState T) (n : Nat) :
    replay (s.buffered_vector.take s.limit) ((update_limit s n).2.toList)
      = (update_limit s n).1.buffered_vector.take (update_limit s n).1.limit := by
  obtain ⟨v, L⟩ := s
  rw [update_limit_fst]
  by_cases he : v.isEmpty
  · have hv : v = [] := by simpa using he
    subst hv
    simp [update_limit, replay]
  · by_cases hlt : L < n
    · by_cases hm : ((v.drop L).take (n - L)).isEmpty
      · have hm' : n - L = 0 ∨ v.length ≤ L := by simpa using hm
        have hlen : v.length ≤ L := by
          rcases hm' with h | h
          · omega
          · exact h
        simp [update_limit, he, hlt, hm, replay, List.take_of_length_le hlen,
              List.take_of_length_le (show v.length ≤ n by omega)]
      · have hrep : v.take L ++ (v.drop L).take (n - L) = v.take n := by
          rw [← List.take_add, show L + (n - L) = n by omega]
        simp [update_limit, he, hlt, hm, replay, update_buffered_vector, hrep]
    · by_cases hgt : n < L
      · by_cases hlen : v.length ≤ n
        · simp [update_limit, he, hlt, hgt, hlen, replay, List.take_of_length_le hlen,
                List.take_of_length_le (show v.length ≤ L by omega)]
        · have h1 : (v.take L).take n = v.take n := by
            rw [List.take_take]
            congr 1
            omega
          simp [update_limit, he, hlt, hgt, hlen, replay, update_buffered_vector, h1]
      · have hEq : L = n := by omega
        subst hEq
        simp [update_limit, he, hlt, hgt, replay]

/-- Invariant of the replay correctness proof: for every well-formed event
sequence, replaying all produced output diffs against the truncated view of
the start state yields the truncated view of the end state. -/
theorem processEvents_replay (es : List (LimitEvent T)) :
    ∀ s : LimitState T, validEvents s.buffered_vector es = true →
      replay (s.buffered_vector.take s.limit) (processEvents s es).2
        = (processEvents s es).1.buffered_vector.take (processEvents s es).1.limit := by
  induction es with
  | nil =>
    intro s _
    simp [processEvents, replay]
  | cons e rest ih =>
    intro s hv
    cases e with
    | limit n =>
      have hv' : validEvents (update_limit s n).1.buffered_vector rest = true := by
        rw [update_limit_fst]
        simpa [validEvents] using hv
      simp only [processEvents, stepEvent]
      rw [replay_append, update_limit_replay]
      exact ih _ hv'
    | diff d =>
      have hd : validDiff d s.buffered_vector = true := by
        simp [validEvents] at hv
        exact hv.1
      have hv' : validEvents (update_buffered_vector d s.buffered_vector) rest = true := by
        simp [validEvents] at hv
        exact hv.2
      simp only [processEvents, stepEvent]
      rw [replay_append, handle_diff_replay d s.limit s.buffered_vector hd]
      exact ih { s with buffered_vector := update_buffered_vector d s.buffered_vector } hv'

theorem processEvents_diff_zero (ds : List (VectorDiff T)) :
    ∀ s : LimitState T, s.limit = 0 →
      (processEvents s (ds.map .diff)).2 = [] ∧ (processEvents s (ds.map .diff)).1.limit = 0 := by
  induction ds with
  | nil =>
    intro s h
    simpa [processEvents] using h
  | cons d ds ih =>
    intro s h
    have hrec := ih { s with buffered_vector := update_buffered_vector d s.buffered_vector }
      (by simpa using h)
    have hout : handle_diff d s.limit s.buffered_vector.length
        (update_buffered_vector d s.buffered_vector) = [] := by
      rw [h]
      simp [handle_diff]
    simp only [List.map_cons, processEvents, stepEvent]
    exact ⟨by simp [hout, hrec.1], hrec.2⟩

/-- C1: for every initial sequence and limit, and every well-formed finite
interleaving of input diffs and limit updates, replaying the limiting
output diff stream of the combinator against the limit-truncated initial view
returned by the constructor yields exactly the mirror of the combinator truncated
to the limit in force at that point. -/
theorem limit_replay_correctness (initial_values : List T) (initial_limit : Nat)
    (es : List (LimitEvent T)) (h : validEvents initial_values es = true) :
    replay (Limit.dynamic_with_initial_limit initial_values initial_limit).1
        (processEvents (Limit.dynamic_with_initial_limit initial_values initial_limit).2 es).2
      = (processEvents (Limit.dynamic_with_initial_limit initial_values initial_limit).2
            es).1.buffered_vector.take
          (processEvents (Limit.dynamic_with_initial_limit initial_values initial_limit).2
            es).1.limit := by
  have hview : (Limit.dynamic_with_initial_limit initial_values initial_limit).1
      = initial_values.take initial_limit := by
    by_cases h2 : initial_limit < initial_values.length
    · simp [Limit.dynamic_with_initial_limit, h2]
    · have h3 : initial_values.take initial_limit = initial_values :=
        List.take_of_length_le (by omega)
      simp [Limit.dynamic_with_initial_limit, h2, h3]
  rw [hview]
  exact processEvents_replay es ⟨initial_values, initial_limit⟩ h

theorem limit_replay_correctness_witness :
    validEvents ([1, 2, 3] : List Nat) [.diff .popFront, .limit 3, .diff (.pushBack 7)] = true ∧
    replay (Limit.dynamic_with_initial_limit ([1, 2, 3] : List Nat) 2).1
        (processEvents (Limit.dynamic_with_initial_limit ([1, 2, 3] : List Nat) 2).2
          [.diff .popFront, .limit 3, .diff (.pushBack 7)]).2
      = (processEvents (Limit.dynamic_with_initial_limit ([1, 2, 3] : List Nat) 2).2
            [.diff .popFront, .limit 3, .diff (.pushBack 7)]).1.buffered_vector.take
          (processEvents (Limit.dynamic_with_initial_limit ([1, 2, 3] : List Nat) 2).2
            [.diff .popFront, .limit 3, .diff (.pushBack 7)]).1.limit :=
  ⟨by decide, limit_replay_correctness [1, 2, 3] 2 _ (by decide)⟩

/-- C2: when the current limit is 0, `handle_diff` emits no output diff for
any input diff; in particular a combinator built with `dynamic` (which starts
at limit 0) emits nothing for any sequence of input diffs. -/
theorem limit_zero_no_output (d : VectorDiff T) (prev_len : Nat) (w : List T)
    (initial_values : List T) (ds : List (VectorDiff T)) :
    handle_diff d 0 prev_len w = [] ∧
    (processEvents (Limit.dynamic initial_values) (ds.map .diff)).2 = [] :=
  ⟨rfl, (processEvents_diff_zero ds (Limit.dynamic initial_values) rfl).1⟩

/-- C3: `update_limit` stores the new limit as-is (never clamped); it emits no
diff when the mirror is empty or the limit is unchanged; on an increase it
emits exactly one `Append` of the mirror slice `[old_limit, new_limit)` when
that slice is non-empty and nothing otherwise; on a decrease it emits exactly
one `Truncate(new_limit)` iff the mirror length exceeds the new limit. -/
theorem update_limit_spec (s : LimitState T) (new_limit : Nat) :
    (update_limit s new_limit).1.limit = new_limit ∧
    (update_limit s new_limit).1.buffered_vector = s.buffered_vector ∧
    (s.buffered_vector = [] → (update_limit s new_limit).2 = none) ∧
    (s.buffered_vector ≠ [] → s.limit < new_limit →
      (update_limit s new_limit).2 =
        if ((s.buffered_vector.drop s.limit).take (new_limit - s.limit)).isEmpty then none
        else some (.append ((s.buffered_vector.drop s.limit).take (new_limit - s.limit)))) ∧
    (s.buffered_vector ≠ [] → new_limit < s.limit →
      (update_limit s new_limit).2 =
        if new_limit < s.buffered_vector.length then some (.truncate new_limit) else none) ∧
    (s.limit = new_limit → (update_limit s new_limit).2 = none) := by
  refine ⟨by rw [update_limit_fst], by rw [update_limit_fst], ?_, ?_, ?_, ?_⟩
  · intro h
    simp [update_limit, h]
  · intro h hlt
    have he : s.buffered_vector.isEmpty = false := by
      simpa [List.isEmpty_iff] using h
    by_cases hm : ((s.buffered_vector.drop s.limit).take (new_limit - s.limit)).isEmpty
    · simp [update_limit, he, hlt, hm]
    · simp [update_limit, he, hlt, hm]
  · intro h hgt
    have he : s.buffered_vector.isEmpty = false := by
      simpa [List.isEmpty_iff] using h
    by_cases hlen : s.buffered_vector.length ≤ new_limit
    · simp [update_limit, he, hgt, hlen, Nat.lt_of_lt_of_le, show ¬ s.limit < new_limit by omega,
            show ¬ new_limit < s.buffered_vector.length by omega]
    · simp [update_limit, he, hgt, hlen, show ¬ s.limit < new_limit by omega,
            show new_limit < s.buffered_vector.length by omega]
  · intro h
    simp [update_limit, h]

theorem update_limit_spec_witness :
    (([1, 2, 3] : List Nat) ≠ [] ∧ 1 < 3 ∧ 1 < 3) ∧
    (update_limit (⟨[1, 2, 3], 1⟩ : LimitState Nat) 3).2 = some (.append [2, 3]) ∧
    (update_limit (⟨[1, 2, 3], 1⟩ : LimitState Nat) 9).1.limit = 9 ∧
    (update_limit (⟨[1, 2, 3], 3⟩ : LimitState Nat) 1).2 = some (.truncate 1) := by
  refine ⟨⟨by decide, by decide, by decide⟩, ?_, ?_, ?_⟩
  · have h := (update_limit_spec (⟨[1, 2, 3], 1⟩ : LimitState Nat) 3).2.2.2.1
      (by decide) (by decide)
    simpa using h
  · exact (update_limit_spec (⟨[1, 2, 3], 1⟩ : LimitState Nat) 9).1
  · have h := (update_limit_spec (⟨[1, 2, 3], 3⟩ : LimitState Nat) 1).2.2.2.2.1
      (by decide) (by decide)
    simpa using h

/-- C4: after processing any event sequence, the mirror equals the result of
applying, in order, every consumed diff to the start value with the apply
semantics — unconditionally and independently of the limit events. -/
theorem buffered_vector_invariant (es : List (LimitEvent T)) :
    ∀ s : LimitState T,
      (processEvents s es).1.buffered_vector = replay s.buffered_vector (eventDiffs es) := by
  induction es with
  | nil =>
    intro s
    simp [processEvents, eventDiffs, replay]
  | cons e rest ih =>
    intro s
    cases e with
    | limit n =>
      simp only [processEvents, stepEvent, eventDiffs]
      rw [ih, update_limit_fst]
    | diff d =>
      simp only [processEvents, stepEvent, eventDiffs]
      rw [ih, replay_cons]

/-- C5: for every input `PopFront` with a positive limit, `handle_diff` emits
`PopFront` followed by a backfill `PushBack` of the post-apply mirror element
at index `limit - 1` exactly when that element exists, independently of
whether the window was full. -/
theorem handle_diff_popFront_spec (limit prev_len : Nat) (h : 0 < limit) (v : List T) :
    handle_diff .popFront limit prev_len v
      = .popFront :: (v[limit - 1]?).toList.map (fun x => .pushBack x) := by
  have h0 : ¬ limit = 0 := by omega
  cases hx : v[limit - 1]? <;> simp [handle_diff, h0, hx]

theorem handle_diff_popFront_witness :
    0 < 2 ∧ handle_diff (T := Nat) .popFront 2 3 [11, 12] = [.popFront, .pushBack 12] :=
  ⟨by decide, by rw [handle_diff_popFront_spec 2 3 (by decide) [11, 12]]; decide⟩

/-- C8: direct cursor addressing `entry i` fails with an out-of-range failure
whenever `i` is not below the current collection length; in particular
`entry 0` on an empty collection fails. -/
theorem entry_out_of_range (coll : List T) (index : Nat) (h : coll.length ≤ index) :
    entry coll index = none := by
  simp [entry, Nat.not_lt.mpr h]

theorem entry_out_of_range_witness :
    ([] : List String).length ≤ 0 ∧ entry ([] : List String) 0 = none :=
  ⟨by decide, entry_out_of_range [] 0 (by decide)⟩

/-- C10: `into_parts` returns the full un-truncated internal mirror; right
after `dynamic_with_initial_limit` with a limit smaller than the initial
length, the vector it returns is the full initial values, is longer than the
limit, and differs from the truncated view returned by the constructor. -/
theorem into_parts_full_mirror (initial_values : List T) (initial_limit : Nat)
    (h : initial_limit < initial_values.length) :
    into_parts (Limit.dynamic_with_initial_limit initial_values initial_limit).2
        = initial_values ∧
    initial_limit < (into_parts (Limit.dynamic_with_initial_limit initial_values initial_limit).2).length ∧
    into_parts (Limit.dynamic_with_initial_limit initial_values initial_limit).2
        ≠ (Limit.dynamic_with_initial_limit initial_values initial_limit).1 := by
  refine ⟨rfl, by simpa [into_parts, Limit.dynamic_with_initial_limit] using h, ?_⟩
  intro hEq
  have hlen := congrArg List.length hEq
  simp [into_parts, Limit.dynamic_with_initial_limit, h, List.length_take] at hlen
  omega

theorem into_parts_full_mirror_witness :
    1 < ([1, 2, 3] : List Nat).length ∧
    (into_parts (Limit.dynamic_with_initial_limit ([1, 2, 3] : List Nat) 1).2 = [1, 2, 3] ∧
     1 < (into_parts (Limit.dynamic_with_initial_limit ([1, 2, 3] : List Nat) 1).2).length ∧
     into_parts (Limit.dynamic_with_initial_limit ([1, 2, 3] : List Nat) 1).2
       ≠ (Limit.dynamic_with_initial_limit ([1, 2, 3] : List Nat) 1).1) :=
  ⟨by decide, into_parts_full_mirror [1, 2, 3] 1 (by decide)⟩

/-- C6 counterexample: the enumeration scenario on `[0,10,1,2,4,33,5]` does
not leave the collection equal to `[5,1,2]`. -/
theorem for_each_scenario_final_ne :
    (for_each [0, 10, 1, 2, 4, 33, 5] halve_evens_visitor).1 ≠ [5, 1, 2] := by
  decide

/-- C6 (amended): the enumeration scenario on `[0,10,1,2,4,33,5]` leaves the
collection equal to `[5,1,1,2,5]` and emits exactly the diff order
`Set(0,0), Remove(0), Set(0,5), Set(2,1), Set(3,2), Remove(4)`; applying that
diff sequence to the original state reproduces the final collection. -/
theorem for_each_scenario :
    for_each [0, 10, 1, 2, 4, 33, 5] halve_evens_visitor
      = ([5, 1, 1, 2, 5],
         [.set 0 0, .remove 0, .set 0 5, .set 2 1, .set 3 2, .remove 4]) ∧
    replay [0, 10, 1, 2, 4, 33, 5]
        [.set 0 0, .remove 0, .set 0 5, .set 2 1, .set 3 2, .remove 4]
      = [5, 1, 1, 2, 5] := by
  constructor
  · decide
  · decide

/-- C7: a receive on a lagged subscriber (one whose undelivered count would
have exceeded the channel capacity) yields exactly one `Reset` carrying the
authoritative value at poll time — never a partial backlog — and leaves the
subscriber fully caught up (empty queue, not lagged), after which delivery
resumes incrementally; a receive on a subscriber that kept up yields the first
undelivered diff, in mutation order. -/
theorem lag_reset_spec (ob : ObservableVector T) (i : Nat) (sub : SubState T)
    (h : ob.subs[i]? = some sub) :
    (sub.lagged = true →
      (ob.pollSub i).1 = some (.reset ob.values) ∧
      (ob.pollSub i).2.subs[i]? = some { queue := [], lagged := false }) ∧
    (sub.lagged = false → (ob.pollSub i).1 = sub.queue.head?) := by
  have hi : i < ob.subs.length := by
    rcases List.getElem?_eq_some.mp h with ⟨hlt, _⟩
    exact hlt
  constructor
  · intro hl
    constructor
    · simp [ObservableVector.pollSub, h, hl]
    · simp [ObservableVector.pollSub, h, hl, List.getElem?_set_self hi]
  · intro hl
    cases hq : sub.queue with
    | nil => simp [ObservableVector.pollSub, h, hl, hq]
    | cons a q => simp [ObservableVector.pollSub, h, hl, hq]

theorem lag_reset_spec_witness :
    ((((((ObservableVector.with_capacity 1).subscribe).subscribe.push_back
          ("hello")).pollSub 0).2.push_back ("world")).subs[1]?
        = some { queue := [], lagged := true }) ∧
    ((((ObservableVector.with_capacity 1).subscribe).subscribe.push_back ("hello")).pollSub 0).1
        = some (.pushBack ("hello")) ∧
    ((((((ObservableVector.with_capacity 1).subscribe).subscribe.push_back
          ("hello")).pollSub 0).2.push_back ("world")).pollSub 0).1
        = some (.pushBack ("world")) ∧
    ((((((ObservableVector.with_capacity 1).subscribe).subscribe.push_back
          ("hello")).pollSub 0).2.push_back ("world")).pollSub 1).1
        = some (.reset ["hello", "world"]) := by
  refine ⟨rfl, ?_, ?_, ?_⟩
  · have h := (lag_reset_spec
      ((((ObservableVector.with_capacity 1).subscribe).subscribe.push_back ("hello")))
      0 { queue := [.pushBack ("hello")], lagged := false } rfl).2 rfl
    simpa using h
  · have h := (lag_reset_spec
      (((((ObservableVector.with_capacity 1).subscribe).subscribe.push_back
        ("hello")).pollSub 0).2.push_back ("world"))
      0 { queue := [.pushBack ("world")], lagged := false } rfl).2 rfl
    simpa using h
  · have h := (lag_reset_spec
      (((((ObservableVector.with_capacity 1).subscribe).subscribe.push_back
        ("hello")).pollSub 0).2.push_back ("world"))
      1 { queue := [], lagged := true } rfl).1 rfl
    simpa using h.1

theorem drainLimits_none (ls : List Nat) :
    ∀ s : LimitState T, (drainLimits s ls).2.2 = none → (drainLimits s ls).2.1 = [] := by
  induction ls with
  | nil => intro s _; rfl
  | cons n ls ih =>
    intro s h
    cases hu : (update_limit s n).2 with
    | some d => simp [drainLimits, hu] at h
    | none =>
      simp only [drainLimits, hu] at h ⊢
      exact ih _ h

theorem pollDiffs_none (ds : List (VectorDiff T)) :
    ∀ s : LimitState T, (pollDiffs s ds).2.2.1 = none →
      (pollDiffs s ds).2.1 = [] ∧ (pollDiffs s ds).2.2.2 = [] := by
  induction ds with
  | nil => intro s _; exact ⟨rfl, rfl⟩
  | cons d ds ih =>
    intro s h
    cases hh : handle_diff d s.limit s.buffered_vector.length
        (update_buffered_vector d s.buffered_vector) with
    | nil =>
      simp only [pollDiffs, hh] at h ⊢
      exact ih _ h
    | cons o os => simp [pollDiffs, hh] at h

theorem pollNext_base (bv : List T) (l : Nat) :
    pollNext (⟨[], [], [], bv, l⟩ : LimitStream T) = (none, ⟨[], [], [], bv, l⟩) := rfl

/-- C9 (amended): no poll returns end-of-stream while a buffered output diff
is pending; and when a poll returns end-of-stream, at that moment the buffer is
empty, all available limit updates are consumed, the true diff stream is
exhausted, and every subsequent poll returns end-of-stream again. (A poll
after the true stream is exhausted with an empty buffer may still emit a diff
caused by a pending limit update, so exhaustion plus an empty buffer alone do
not imply end-of-stream.) -/
theorem pollNext_end_spec (s : LimitStream T) :
    (∀ r rest, s.ready_values = r :: rest → (pollNext s).1 = some r) ∧
    ((pollNext s).1 = none →
      (pollNext s).2.ready_values = [] ∧ (pollNext s).2.limit_stream = [] ∧
      (pollNext s).2.inner_stream = [] ∧
      pollNext (pollNext s).2 = (none, (pollNext s).2)) := by
  obtain ⟨rv, ls, is, bv, l⟩ := s
  constructor
  · intro r rest hr
    subst hr
    rfl
  · intro hnone
    cases rv with
    | cons r rest => simp [pollNext] at hnone
    | nil =>
      cases hdl : (drainLimits (⟨bv, l⟩ : LimitState T) ls).2.2 with
      | some d => simp [pollNext, hdl] at hnone
      | none =>
        cases hpd : (pollDiffs (drainLimits (⟨bv, l⟩ : LimitState T) ls).1 is).2.2.1 with
        | some o => simp [pollNext, hdl, hpd] at hnone
        | none =>
          have h1 := drainLimits_none ls (⟨bv, l⟩ : LimitState T) hdl
          have h2 := pollDiffs_none is (drainLimits (⟨bv, l⟩ : LimitState T) ls).1 hpd
          simp only [pollNext, hdl, hpd, h1, h2.1]
          exact ⟨trivial, trivial, trivial, by rfl⟩

theorem pollNext_end_spec_witness :
    (⟨[.clear], [], [], [], 0⟩ : LimitStream Nat).ready_values = .clear :: [] ∧
    (pollNext (⟨[.clear], [], [], [], 0⟩ : LimitStream Nat)).1 = some .clear ∧
    (pollNext (⟨[], [], [], [5], 2⟩ : LimitStream Nat)).1 = none ∧
    pollNext (pollNext (⟨[], [], [], [5], 2⟩ : LimitStream Nat)).2
      = (none, (pollNext (⟨[], [], [], [5], 2⟩ : LimitStream Nat)).2) :=
  ⟨rfl, (pollNext_end_spec _).1 .clear [] rfl, rfl,
    ((pollNext_end_spec (⟨[], [], [], [5], 2⟩ : LimitStream Nat)).2 rfl).2.2.2⟩

/-- C9 counterexample: a state whose true diff stream is exhausted and whose
buffer is empty can still produce a diff on the next poll, caused by a pending
limit update, so the output stream does not end exactly when those two
conditions hold. -/
theorem pollNext_not_end_counterexample :
    (⟨[], [1], [], [42], 0⟩ : LimitStream Nat).inner_stream = [] ∧
    (⟨[], [1], [], [42], 0⟩ : LimitStream Nat).ready_values = [] ∧
    (pollNext (⟨[], [1], [], [42], 0⟩ : LimitStream Nat)).1 = some (.append [42]) :=
  ⟨rfl, rfl, rfl⟩
